import Mathlib

/-!
# Market-data distribution hub: a shallow embedding

This file embeds the core of the `financial_data_pipeline` repository in Lean:
the `PriceAggregator` and `HighThroughputProcessor` of
`src/processor/aggregator.rs`, and the `MarketDataHub` actor of
`src/processor/hub.rs` (its command handlers, its tick-distribution pass and
its event loop).  Rust `Decimal` values (`rust_decimal`, 96-bit fixed point)
are modelled as exact rationals; `HashMap` is modelled as an association list
with unique keys; tokio channels are modelled by their observable state
(capacity, queued items, closed flag).  Wall-clock quantities
(`tick.timestamp`, `PriceStats.duration_secs`) are outside the embedding: no
claim depends on them and no hub or aggregator logic reads them.
-/

namespace MarketData

/-- One market observation, from `src/models/market_tick.rs` (`MarketTick`).
The `timestamp: DateTime<Utc>` field is wall-clock data never read by the hub
or aggregator logic and is omitted from the embedding. -/
structure MarketTick where
  symbol : String
  price : ℚ
  volume : ℕ
  deriving DecidableEq

/-! ## Association-list model of `HashMap` -/

/-- Lookup in a `HashMap<String, α>` modelled as an association list
(`HashMap::get` / `HashMap::get_mut`). -/
def lookupA {α : Type} : List (String × α) → String → Option α
  | [], _ => none
  | (k, v) :: rest, key => if k = key then some v else lookupA rest key

/-- The `entry(key).or_default().push(x)` pattern on a `HashMap<String, Vec<α>>`:
append `x` to the vector at `key`, inserting an empty vector first when the key
is absent. -/
def entryPush {α : Type} : List (String × List α) → String → α → List (String × List α)
  | [], key, x => [(key, [x])]
  | (k, v) :: rest, key, x =>
    if k = key then (k, v ++ [x]) :: rest else (k, v) :: entryPush rest key x

/-- Write back a mutated value at an existing key (the effect of mutating
through `HashMap::get_mut`): the key itself stays present even when the new
value is the empty vector. -/
def setA {α : Type} : List (String × α) → String → α → List (String × α)
  | [], _, _ => []
  | (k, v) :: rest, key, w =>
    if k = key then (k, w) :: rest else (k, v) :: setA rest key w

/-- The effect of `HashMap::remove(key)`: the entry for `key` disappears.
Keys of a `HashMap` are unique; on such lists this removes exactly the one
entry for `key`. -/
def removeA {α : Type} : List (String × α) → String → List (String × α)
  | [], _ => []
  | (k, v) :: rest, key =>
    if k = key then removeA rest key else (k, v) :: removeA rest key

/-- The key set of the map, as produced by `HashMap::keys()`. -/
def keysA {α : Type} (m : List (String × α)) : List String :=
  m.map Prod.fst

/-! ## Aggregator (`src/processor/aggregator.rs`) -/

/-- The `symbol_prices: HashMap<String, Vec<Decimal>>` field of
`PriceAggregator`.  The `start_time: Instant` field is wall-clock state used
only for `duration_secs` reporting and is outside the embedding. -/
abbrev AggState : Type := List (String × List ℚ)

/-- The retained price history of a symbol ([] when the symbol has no entry). -/
def historyOf (agg : AggState) (symbol : String) : List ℚ :=
  (lookupA agg symbol).getD []

/-- The `tick.price.to_f64()` call inside `add_tick`.  `rust_decimal`'s
`ToPrimitive::to_f64` returns `Some` for every `Decimal`; the converted value
feeds only the local `sum` of sines that `add_tick` computes and then discards,
so only the `some`/`none` distinction is observable and we carry the rational
through unchanged. -/
def decimalToF64 (q : ℚ) : Option ℚ :=
  some q

/-- `PriceAggregator::add_tick` (aggregator.rs lines 23-32): unwraps the
`to_f64` conversion (a panic on `None`, modelled as the `none` branch), runs a
discarded floating-point sum, then appends `tick.price` to the per-symbol
history via `entry(..).or_default().push(..)`. -/
def addTick (agg : AggState) (tick : MarketTick) : Option AggState :=
  match decimalToF64 tick.price with
  | none => none
  | some _ => some (entryPush agg tick.symbol tick.price)

/-- The `Decimal::from_usize(count)` call inside `get_statistics`.  A `usize`
is below `2^64` and every natural below `2^96` is representable, so the
conversion always returns `Some`. -/
def decimalFromUsize (n : ℕ) : Option ℚ :=
  some (n : ℚ)

/-- `PriceStats` (aggregator.rs lines 81-89) minus the wall-clock
`duration_secs` field. -/
structure PriceStats where
  symbol : String
  count : ℕ
  min_price : ℚ
  max_price : ℚ
  avg_price : ℚ
  deriving DecidableEq

/-- `PriceAggregator::get_statistics` (aggregator.rs lines 34-57): `None` when
the symbol has no entry or an empty history; otherwise min, max, count, and
the decimal mean `sum / from_usize(count)`.  The catch-all `none` branch
mirrors the `?` operators on `min`, `max` and `from_usize`. -/
def getStatistics (agg : AggState) (symbol : String) : Option PriceStats :=
  match lookupA agg symbol with
  | none => none
  | some prices =>
    if prices = [] then none
    else
      match prices.min?, prices.max?, decimalFromUsize prices.length with
      | some minP, some maxP, some countD =>
        some ⟨symbol, prices.length, minP, maxP, prices.sum / countD⟩
      | _, _, _ => none

/-- Total number of recorded ticks across all symbols (the quantity the
fan-in pool property is about). -/
def aggTotal (agg : AggState) : ℕ :=
  (agg.map fun e => e.2.length).sum

/-! ## Subscriber channels and the hub (`src/processor/hub.rs`) -/

/-- Observable state of one subscriber channel: the hub holds the
`mpsc::Sender<MarketTick>` half.  `id` identifies the channel (the sender's
identity), `cap` is the bound passed to `mpsc::channel`, `queued` the number of
buffered undelivered items, `closed` whether the client dropped its
`Receiver`. -/
structure Chan where
  id : ℕ
  cap : ℕ
  queued : ℕ
  closed : Bool
  deriving DecidableEq

/-- Outcome of `sender.send(tick).await` on a tokio bounded mpsc channel:
`errClosed` (an immediate `Err`) exactly when the receiver was dropped;
`delivered` when buffer space is available; `blocked` when the channel is full
and open — the await then suspends until the receiver drains an item. -/
inductive SendResult where
  | delivered
  | blocked
  | errClosed
  deriving DecidableEq

/-- Classify `sender.send(..).await` by the channel's state. -/
def mpscSend (c : Chan) : SendResult :=
  if c.closed then SendResult.errClosed
  else if c.queued < c.cap then SendResult.delivered
  else SendResult.blocked

/-- The hub-owned state of `MarketDataHub`: the `subscribers` registry
(`HashMap<String, Vec<mpsc::Sender<MarketTick>>>`) and the aggregator.
`nextId` models the runtime's supply of fresh channel identities for
`mpsc::channel` in `handle_subscribe`. -/
structure HubState where
  subscribers : List (String × List Chan)
  agg : AggState
  nextId : ℕ
  deriving DecidableEq

/-- The distribution for-loop of `process_market_tick` (hub.rs lines 126-135):
walk the subscriber vector in order, awaiting `send` on each; an `Err` (closed
channel) pushes the entry's index onto `failed_channels` and the loop
continues.  Returns the updated channels, the failed indices in collection
order, and the ids of channels that received the tick.  A `blocked` send
suspends the pass: with no concurrent draining it never completes, modelled as
`none`. -/
def sendLoop : List Chan → ℕ → Option (List Chan × List ℕ × List ℕ)
  | [], _ => some ([], [], [])
  | c :: cs, idx =>
    match mpscSend c with
    | SendResult.errClosed =>
      (sendLoop cs (idx + 1)).map fun r => (c :: r.1, idx :: r.2.1, r.2.2)
    | SendResult.delivered =>
      (sendLoop cs (idx + 1)).map fun r =>
        ({ c with queued := c.queued + 1 } :: r.1, r.2.1, c.id :: r.2.2)
    | SendResult.blocked => none

/-- The eviction loop of `process_market_tick` (hub.rs lines 136-138):
`for idx in failed_channels.iter().rev() { subscribers.remove(*idx); }` —
a fold of `Vec::remove` (= `List.eraseIdx`) over the reversed index list. -/
def evictRev (subs : List Chan) (failed : List ℕ) : List Chan :=
  failed.reverse.foldl (fun l i => l.eraseIdx i) subs

/-- Specification-side description of a stable two-phase removal: keep exactly
the entries whose position (counting from `i`) is not marked, in their
original order and with their identities untouched. -/
def keepNotIn {α : Type} : List α → ℕ → List ℕ → List α
  | [], _, _ => []
  | a :: as, i, marked =>
    if i ∈ marked then keepNotIn as (i + 1) marked
    else a :: keepNotIn as (i + 1) marked

/-- `MarketDataHub::process_market_tick` (hub.rs lines 118-140): add the tick
to the aggregator, then, when the symbol has a subscriber vector, run the
distribution pass and evict the failed entries; the (possibly emptied) vector
is written back under its key.  `none` models a call that does not return
normally: the unreachable `unwrap` panic inside `add_tick`, or a send
suspended on a full open channel with nobody draining it.  The second
component lists the ids of the channels the tick was delivered to. -/
def processMarketTick (st : HubState) (tick : MarketTick) :
    Option (HubState × List ℕ) :=
  match addTick st.agg tick with
  | none => none
  | some agg2 =>
    match lookupA st.subscribers tick.symbol with
    | none => some ({ st with agg := agg2 }, [])
    | some subs =>
      match sendLoop subs 0 with
      | none => none
      | some (subs2, failed, delivered) =>
        some ({ st with
                  agg := agg2,
                  subscribers :=
                    setA st.subscribers tick.symbol (evictRev subs2 failed) },
              delivered)

/-- `MarketDataHub::handle_subscribe` (hub.rs lines 143-157): create a bounded
channel of capacity 1000, push its sender under the symbol, then send the
receiver through the caller's oneshot.  `respOpen` tells whether the caller
still holds the oneshot receiver; the returned boolean is whether that reply
succeeded — a failure is only logged. -/
def handleSubscribe (st : HubState) (symbol : String) (respOpen : Bool) :
    HubState × Bool :=
  let newChan : Chan := ⟨st.nextId, 1000, 0, false⟩
  ({ st with
      subscribers := entryPush st.subscribers symbol newChan,
      nextId := st.nextId + 1 },
   respOpen)

/-- `MarketDataHub::handle_unsubscribe` (hub.rs lines 160-171):
`subscribers.remove(&symbol)`; both match arms only log. -/
def handleUnsubscribe (st : HubState) (symbol : String) : HubState :=
  { st with subscribers := removeA st.subscribers symbol }

/-- `MarketDataHub::handle_get_stats` (hub.rs lines 174-187): the reply is
`subscribers.keys().filter_map(|s| aggregator.get_statistics(s)).collect()`. -/
def handleGetStats (st : HubState) : List PriceStats :=
  (keysA st.subscribers).filterMap fun symbol => getStatistics st.agg symbol

/-- A client dropping the `Receiver` of its subscription channel: every
subsequent `send` on the matching sender returns `Err`. -/
def dropReceiver (st : HubState) (cid : ℕ) : HubState :=
  { st with
      subscribers :=
        st.subscribers.map fun e =>
          (e.1, e.2.map fun c => if c.id = cid then { c with closed := true } else c) }

/-- The subscriber vector currently registered under a symbol ([] when the
symbol has no entry). -/
def subsOf (st : HubState) (symbol : String) : List Chan :=
  (lookupA st.subscribers symbol).getD []

/-! ## The hub event loop (`MarketDataHub::start`, hub.rs lines 75-115) -/

/-- Hub lifecycle states of the spec: `running` while the `loop` iterates,
`shuttingDown` once `break` executed. -/
inductive Mode where
  | running
  | shuttingDown
  deriving DecidableEq

/-- The four `MarketCommand` variants (hub.rs lines 10-24).  For the two
request/response kinds, `respOpen` records whether the caller still holds the
oneshot receiver. -/
inductive MarketCommand where
  | subscribe (symbol : String) (respOpen : Bool)
  | unsubscribe (symbol : String)
  | getStats (respOpen : Bool)
  | shutdown
  deriving DecidableEq

/-- One event offered to the `tokio::select!` of the event loop: a tick on
`data_rx`, a command on `command_rx`, or the broadcast shutdown signal on
`shutdown_rx`. -/
inductive HubEvent where
  | tick (t : MarketTick)
  | cmd (c : MarketCommand)
  | signal
  deriving DecidableEq

/-- State of the event loop: the hub-owned data, the lifecycle mode, and for
every registered shutdown listener (a `broadcast::Receiver` handed out by
`subscribe_to_shutdown`) the number of shutdown notifications it has pending,
i.e. has observed. -/
structure LoopState where
  hub : HubState
  mode : Mode
  listeners : List ℕ
  deriving DecidableEq

/-- `MarketDataHub::subscribe_to_shutdown` (hub.rs lines 246-249): register
one more broadcast listener, with no notifications yet. -/
def subscribeToShutdown (s : LoopState) : LoopState :=
  { s with listeners := s.listeners ++ [0] }

/-- One iteration body of the `tokio::select!` loop (hub.rs lines 82-113):
a tick goes through `process_market_tick`; `Subscribe`, `Unsubscribe` and
`GetStats` dispatch to their handlers (`handle_get_stats` takes `&self` and
mutates nothing); `Shutdown` sends the one-time broadcast — observed once by
every registered listener — and breaks; the external shutdown signal breaks
without re-broadcasting.  `none` propagates a tick pass that does not return
(see `processMarketTick`). -/
def stepEvent (s : LoopState) (e : HubEvent) : Option LoopState :=
  match e with
  | HubEvent.tick t =>
    (processMarketTick s.hub t).map fun r => { s with hub := r.1 }
  | HubEvent.cmd (MarketCommand.subscribe symbol respOpen) =>
    some { s with hub := (handleSubscribe s.hub symbol respOpen).1 }
  | HubEvent.cmd (MarketCommand.unsubscribe symbol) =>
    some { s with hub := handleUnsubscribe s.hub symbol }
  | HubEvent.cmd (MarketCommand.getStats _) => some s
  | HubEvent.cmd MarketCommand.shutdown =>
    some { s with mode := Mode.shuttingDown, listeners := s.listeners.map (· + 1) }
  | HubEvent.signal => some { s with mode := Mode.shuttingDown }

/-- Run the event loop over a finite schedule of offered events, stopping as
soon as the loop has broken (`shuttingDown`).  Returns the final state and the
number of iterations that processed an event; `none` propagates a
non-returning iteration. -/
def runLoop (s : LoopState) : List HubEvent → Option (LoopState × ℕ)
  | [] => some (s, 0)
  | e :: es =>
    if s.mode = Mode.shuttingDown then some (s, 0)
    else
      (stepEvent s e).bind fun s2 => (runLoop s2 es).map fun r => (r.1, r.2 + 1)

/-- The loop state right after the `Shutdown` command arm ran: the mode is
terminal and the one-time broadcast has reached every registered listener. -/
def shutdownState (s : LoopState) : LoopState :=
  { s with mode := Mode.shuttingDown, listeners := s.listeners.map (· + 1) }

/-! ## Fan-in pool (`HighThroughputProcessor::process_market_stream`,
aggregator.rs lines 107-150) -/

/-- One worker task of the pool: `inFlight` is a tick received from the stream
but not yet added to the aggregator; `done` records that the worker observed
the closed-and-empty stream and broke its loop. -/
structure Worker where
  inFlight : Option MarketTick
  done : Bool
  deriving DecidableEq

/-- State of the pool: the remaining items of the shared inbound stream
(closed once empty — the producers are gone), the workers, and the shared
mutex-guarded aggregator. -/
structure PoolState where
  stream : List MarketTick
  workers : List Worker
  agg : AggState
  deriving DecidableEq

/-- Atomic steps of the pool, as serialized by the two mutexes: `recv` is one
worker's `rx_guard.recv().await` under the stream lock popping one item;
`recvClosed` is the same call observing closed-and-empty and the worker
breaking; `process` is `agg.add_tick(tick)` under the aggregator lock.  A
worker is identified by its position (`front` / `back` split); its program
order recv-then-process is enforced by the `inFlight` field. -/
inductive PoolStep : PoolState → PoolState → Prop
  | recv (t : MarketTick) (rest : List MarketTick) (front back : List Worker)
      (agg : AggState) :
      PoolStep ⟨t :: rest, front ++ ⟨none, false⟩ :: back, agg⟩
               ⟨rest, front ++ ⟨some t, false⟩ :: back, agg⟩
  | recvClosed (front back : List Worker) (agg : AggState) :
      PoolStep ⟨[], front ++ ⟨none, false⟩ :: back, agg⟩
               ⟨[], front ++ ⟨none, true⟩ :: back, agg⟩
  | process (t : MarketTick) (stream : List MarketTick) (front back : List Worker)
      (agg agg2 : AggState) :
      addTick agg t = some agg2 →
      PoolStep ⟨stream, front ++ ⟨some t, false⟩ :: back, agg⟩
               ⟨stream, front ++ ⟨none, false⟩ :: back, agg2⟩

/-- Reachability under any interleaving of pool steps. -/
def Reaches (p q : PoolState) : Prop :=
  Relation.ReflTransGen PoolStep p q

/-- Number of workers holding a received-but-unprocessed tick. -/
def inFlightCount (ws : List Worker) : ℕ :=
  ws.countP fun w => w.inFlight.isSome

/-- Conserved quantity of the pool: items still on the stream, in flight, or
recorded in the aggregator. -/
def poolMeasure (p : PoolState) : ℕ :=
  p.stream.length + inFlightCount p.workers + aggTotal p.agg

/-- Initial pool state: `consumer_count = n` freshly spawned workers, the
`m`-tick inbound stream, the fresh shared aggregator. -/
def initPool (n : ℕ) (ticks : List MarketTick) : PoolState :=
  ⟨ticks, List.replicate n ⟨none, false⟩, []⟩

/-- Well-formedness invariant of the pool: a worker that broke its loop holds
no in-flight tick, and once any worker has observed the closed-and-empty
stream the stream is empty (it never refills). -/
def PoolWf (p : PoolState) : Prop :=
  (∀ w ∈ p.workers, w.done = true → w.inFlight = none) ∧
  ((∃ w ∈ p.workers, w.done = true) → p.stream = [])

/-! ## Association-list lemmas -/

lemma lookupA_entryPush_self {α : Type} (m : List (String × List α)) (k : String) (x : α) :
    lookupA (entryPush m k x) k = some ((lookupA m k).getD [] ++ [x]) := by
  induction m with
  | nil => simp [entryPush, lookupA]
  | cons e rest ih =>
    obtain ⟨k2, v⟩ := e
    by_cases h : k2 = k
    · subst h
      simp [entryPush, lookupA]
    · simp [entryPush, lookupA, h, ih]

lemma lookupA_entryPush_ne {α : Type} (m : List (String × List α)) (k k2 : String) (x : α)
    (h : k2 ≠ k) : lookupA (entryPush m k x) k2 = lookupA m k2 := by
  induction m with
  | nil => simp [entryPush, lookupA, Ne.symm h]
  | cons e rest ih =>
    obtain ⟨k3, v⟩ := e
    by_cases h3 : k3 = k
    · subst h3
      simp [entryPush, lookupA, Ne.symm h]
    · by_cases h4 : k3 = k2
      · subst h4
        simp [entryPush, lookupA, h3]
      · simp [entryPush, lookupA, h3, h4, ih]

lemma lookupA_removeA_self {α : Type} (m : List (String × α)) (k : String) :
    lookupA (removeA m k) k = none := by
  induction m with
  | nil => simp [removeA, lookupA]
  | cons e rest ih =>
    obtain ⟨k2, v⟩ := e
    by_cases h : k2 = k
    · simp [removeA, h, ih]
    · simp [removeA, lookupA, h, ih]

lemma removeA_of_lookupA_none {α : Type} (m : List (String × α)) (k : String)
    (h : lookupA m k = none) : removeA m k = m := by
  induction m with
  | nil => simp [removeA]
  | cons e rest ih =>
    obtain ⟨k2, v⟩ := e
    by_cases h2 : k2 = k
    · simp [lookupA, h2] at h
    · simp [lookupA, h2] at h
      simp [removeA, h2, ih h]

lemma lookupA_none_iff {α : Type} (m : List (String × α)) (k : String) :
    lookupA m k = none ↔ k ∉ keysA m := by
  induction m with
  | nil => simp [lookupA, keysA]
  | cons e rest ih =>
    obtain ⟨k2, w⟩ := e
    by_cases h2 : k2 = k
    · subst h2
      simp [lookupA, keysA]
    · simp [lookupA, keysA, h2, Ne.symm h2, ih]

/-! ## Aggregator lemmas -/

lemma addTick_eq (agg : AggState) (t : MarketTick) :
    addTick agg t = some (entryPush agg t.symbol t.price) := rfl

lemma getStatistics_symbol_eq {agg : AggState} {k : String} {s : PriceStats}
    (h : getStatistics agg k = some s) : s.symbol = k := by
  cases hl : lookupA agg k with
  | none => simp [getStatistics, hl] at h
  | some prices =>
    by_cases hp : prices = []
    · simp [getStatistics, hl, hp] at h
    · cases hm : prices.min? with
      | none => simp [getStatistics, hl, hp, hm] at h
      | some m =>
        cases hx : prices.max? with
        | none => simp [getStatistics, hl, hp, hm, hx] at h
        | some mx =>
          simp only [getStatistics, hl, if_neg hp, hm, hx, decimalFromUsize] at h
          injection h with h2
          rw [← h2]

lemma getStatistics_none_iff (agg : AggState) (symbol : String) :
    getStatistics agg symbol = none ↔ historyOf agg symbol = [] := by
  cases hl : lookupA agg symbol with
  | none => simp [getStatistics, historyOf, hl]
  | some prices =>
    by_cases hp : prices = []
    · simp [getStatistics, historyOf, hl, hp]
    · have hmne : prices.min? ≠ none := by simp [List.min?_eq_none_iff, hp]
      have hxne : prices.max? ≠ none := by simp [List.max?_eq_none_iff, hp]
      obtain ⟨m, hm⟩ := Option.ne_none_iff_exists'.mp hmne
      obtain ⟨mx, hx⟩ := Option.ne_none_iff_exists'.mp hxne
      simp [getStatistics, historyOf, hl, hp, hm, hx, decimalFromUsize]

/-- The minimum returned by `Iterator::min` over a nonempty list is a member
and a lower bound (instantiation of the core `min?` lemmas at `ℚ`). -/
lemma min?_is_min {prices : List ℚ} {m : ℚ} (h : prices.min? = some m) :
    m ∈ prices ∧ ∀ x ∈ prices, m ≤ x :=
  ⟨List.min?_mem min_choice h,
   fun x hx => (List.le_min?_iff (fun _ _ _ => le_min_iff) h).mp le_rfl x hx⟩

/-- The maximum returned by `Iterator::max` over a nonempty list is a member
and an upper bound. -/
lemma max?_is_max {prices : List ℚ} {mx : ℚ} (h : prices.max? = some mx) :
    mx ∈ prices ∧ ∀ x ∈ prices, x ≤ mx :=
  ⟨List.max?_mem max_choice h,
   fun x hx => (List.max?_le_iff (fun _ _ _ => max_le_iff) h).mp le_rfl x hx⟩

/-! ## Distribution-pass and eviction lemmas -/

lemma sendLoop_spec : ∀ (cs : List Chan) (idx : ℕ)
    (subs2 : List Chan) (failed delivered : List ℕ),
    sendLoop cs idx = some (subs2, failed, delivered) →
    subs2.length = cs.length ∧ failed.Pairwise (· < ·) ∧
      ∀ i ∈ failed, idx ≤ i ∧ i < idx + cs.length := by
  intro cs
  induction cs with
  | nil =>
    intro idx subs2 failed delivered h
    simp [sendLoop] at h
    obtain ⟨h1, h2, h3⟩ := h
    subst h1
    subst h2
    subst h3
    simp
  | cons c cs ih =>
    intro idx subs2 failed delivered h
    simp only [sendLoop] at h
    cases hs : mpscSend c with
    | blocked => rw [hs] at h; simp at h
    | errClosed =>
      rw [hs] at h
      cases hrec : sendLoop cs (idx + 1) with
      | none => rw [hrec] at h; simp at h
      | some r2 =>
        obtain ⟨s2, f2, d2⟩ := r2
        rw [hrec] at h
        injection h with h2
        obtain ⟨rfl, rfl, rfl⟩ : c :: s2 = subs2 ∧ idx :: f2 = failed ∧ d2 = delivered := by
          rw [Prod.mk.injEq, Prod.mk.injEq] at h2
          exact ⟨h2.1, h2.2.1, h2.2.2⟩
        obtain ⟨hlen, hpair, hbound⟩ := ih (idx + 1) s2 f2 d2 hrec
        refine ⟨by simp [hlen], ?_, ?_⟩
        · exact List.Pairwise.cons (fun i hi => by have := (hbound i hi).1; omega) hpair
        · intro i hi
          rcases List.mem_cons.mp hi with h1 | h1
          · subst h1; constructor <;> simp
          · have := hbound i h1; simp only [List.length_cons]; omega
    | delivered =>
      rw [hs] at h
      cases hrec : sendLoop cs (idx + 1) with
      | none => rw [hrec] at h; simp at h
      | some r2 =>
        obtain ⟨s2, f2, d2⟩ := r2
        rw [hrec] at h
        injection h with h2
        obtain ⟨rfl, rfl, rfl⟩ :
            { c with queued := c.queued + 1 } :: s2 = subs2 ∧ f2 = failed ∧
              c.id :: d2 = delivered := by
          rw [Prod.mk.injEq, Prod.mk.injEq] at h2
          exact ⟨h2.1, h2.2.1, h2.2.2⟩
        obtain ⟨hlen, hpair, hbound⟩ := ih (idx + 1) s2 f2 d2 hrec
        refine ⟨by simp [hlen], hpair, ?_⟩
        intro i hi
        have := hbound i hi
        simp only [List.length_cons]
        omega

lemma keepNotIn_of_all_lt {α : Type} : ∀ (l : List α) (i : ℕ) (ds : List ℕ),
    (∀ d ∈ ds, d < i) → keepNotIn l i ds = l := by
  intro l
  induction l with
  | nil => intro i ds _; rfl
  | cons a as ih =>
    intro i ds h
    have hni : i ∉ ds := fun hmem => absurd (h i hmem) (lt_irrefl i)
    simp only [keepNotIn, if_neg hni]
    rw [ih (i + 1) ds (fun d hd => Nat.lt_succ_of_lt (h d hd))]

lemma keepNotIn_congr {α : Type} : ∀ (l : List α) (i : ℕ) (ds1 ds2 : List ℕ),
    (∀ x, x ∈ ds1 ↔ x ∈ ds2) → keepNotIn l i ds1 = keepNotIn l i ds2 := by
  intro l
  induction l with
  | nil => intro i ds1 ds2 _; rfl
  | cons a as ih =>
    intro i ds1 ds2 h
    simp only [keepNotIn]
    by_cases hi : i ∈ ds1
    · rw [if_pos hi, if_pos ((h i).mp hi), ih _ _ _ h]
    · rw [if_neg hi, if_neg (fun hh => hi ((h i).mpr hh)), ih _ _ _ h]

lemma keepNotIn_eraseIdx {α : Type} : ∀ (l : List α) (d n : ℕ) (ds : List ℕ),
    d < l.length → (∀ x ∈ ds, x < n + d) →
    keepNotIn (l.eraseIdx d) n ds = keepNotIn l n ((n + d) :: ds) := by
  intro l
  induction l with
  | nil => intro d n ds hd _; simp at hd
  | cons a as ih =>
    intro d n ds hd hds
    cases d with
    | zero =>
      have h1 : n ∈ ((n + 0) :: ds) := by simp
      simp only [List.eraseIdx_cons_zero, keepNotIn, if_pos h1]
      rw [keepNotIn_of_all_lt as n ds (by simpa using hds),
          keepNotIn_of_all_lt as (n + 1) ((n + 0) :: ds) ?_]
      intro x hx
      rcases List.mem_cons.mp hx with h2 | h2
      · omega
      · have := hds x h2; omega
    | succ d =>
      have hcond : (n ∈ (n + (d + 1)) :: ds) ↔ (n ∈ ds) := by
        simp only [List.mem_cons]
        constructor
        · rintro (h2 | h2)
          · omega
          · exact h2
        · exact Or.inr
      simp only [List.eraseIdx_cons_succ, keepNotIn]
      have harg : ∀ x ∈ ds, x < (n + 1) + d := fun x hx => by have := hds x hx; omega
      have hlen : d < as.length := by simpa using hd
      by_cases hn : n ∈ ds
      · rw [if_pos hn, if_pos (hcond.mpr hn), ih d (n + 1) ds hlen harg]
        have : (n + 1) + d = n + (d + 1) := by omega
        rw [this]
      · rw [if_neg hn, if_neg (fun hh => hn (hcond.mp hh)), ih d (n + 1) ds hlen harg]
        have : (n + 1) + d = n + (d + 1) := by omega
        rw [this]

lemma foldl_eraseIdx_keepNotIn {α : Type} : ∀ (ds : List ℕ) (l : List α),
    ds.Pairwise (· > ·) → (∀ d ∈ ds, d < l.length) →
    ds.foldl (fun acc i => acc.eraseIdx i) l = keepNotIn l 0 ds := by
  intro ds
  induction ds with
  | nil =>
    intro l _ _
    simp [keepNotIn_of_all_lt l 0 []]
  | cons d ds ih =>
    intro l hpair hbound
    have hd : d < l.length := hbound d (by simp)
    have hds : ∀ x ∈ ds, x < d := fun x hx => (List.pairwise_cons.mp hpair).1 x hx
    have hlen : ∀ x ∈ ds, x < (l.eraseIdx d).length := by
      intro x hx
      rw [List.length_eraseIdx_of_lt hd]
      have := hds x hx
      omega
    simp only [List.foldl_cons]
    rw [ih (l.eraseIdx d) (List.pairwise_cons.mp hpair).2 hlen,
        keepNotIn_eraseIdx l d 0 ds hd (by simpa using hds)]
    simp

/-! ## Event-loop lemmas -/

lemma stepEvent_shutdown (s : LoopState) :
    stepEvent s (HubEvent.cmd MarketCommand.shutdown) = some (shutdownState s) := rfl

lemma stepEvent_signal (s : LoopState) :
    stepEvent s HubEvent.signal = some { s with mode := Mode.shuttingDown } := rfl

lemma runLoop_terminal {s : LoopState} (h : s.mode = Mode.shuttingDown) :
    ∀ es, runLoop s es = some (s, 0) := by
  intro es
  cases es with
  | nil => rfl
  | cons e es => simp [runLoop, h]

lemma stepEvent_preserve {s s2 : LoopState} {e : HubEvent}
    (h : stepEvent s e = some s2)
    (h1 : e ≠ HubEvent.cmd MarketCommand.shutdown) (h2 : e ≠ HubEvent.signal) :
    s2.mode = s.mode ∧ s2.listeners = s.listeners := by
  cases e with
  | tick t =>
    cases hp : processMarketTick s.hub t with
    | none => simp [stepEvent, hp] at h
    | some r =>
      simp only [stepEvent, hp, Option.map] at h
      injection h with h3
      rw [← h3]
      exact ⟨rfl, rfl⟩
  | cmd c =>
    cases c with
    | subscribe symbol respOpen =>
      injection h with h3
      rw [← h3]
      exact ⟨rfl, rfl⟩
    | unsubscribe symbol =>
      injection h with h3
      rw [← h3]
      exact ⟨rfl, rfl⟩
    | getStats respOpen =>
      injection h with h3
      rw [← h3]
      exact ⟨rfl, rfl⟩
    | shutdown => exact absurd rfl h1
  | signal => exact absurd rfl h2

lemma runLoop_cmd_trigger (s : LoopState) (pre post : List HubEvent)
    (s2 : LoopState) (count : ℕ)
    (hmode : s.mode = Mode.running)
    (hsig : HubEvent.signal ∉ pre)
    (hl : ∀ n ∈ s.listeners, n = 0)
    (hrun : runLoop s (pre ++ HubEvent.cmd MarketCommand.shutdown :: post) =
      some (s2, count)) :
    s2.mode = Mode.shuttingDown ∧ count ≤ pre.length + 1 ∧
    (∀ n ∈ s2.listeners, n = 1) ∧ s2.listeners.length = s.listeners.length ∧
    (∀ es, runLoop s2 es = some (s2, 0)) := by
  induction pre generalizing s s2 count with
  | nil =>
    rw [List.nil_append, runLoop, if_neg (by rw [hmode]; simp), stepEvent_shutdown,
      Option.some_bind, runLoop_terminal (s := shutdownState s) rfl post] at hrun
    simp only [Option.map_some'] at hrun
    injection hrun with h2
    rw [Prod.mk.injEq] at h2
    obtain ⟨h3, h4⟩ := h2
    subst h3
    subst h4
    refine ⟨rfl, by simp, ?_, by simp [shutdownState], runLoop_terminal rfl⟩
    intro n hn
    simp only [shutdownState, List.mem_map] at hn
    obtain ⟨m, hm, hm2⟩ := hn
    rw [← hm2, hl m hm]
  | cons e pre ih =>
    have hesig : e ≠ HubEvent.signal := fun hh => hsig (hh ▸ List.mem_cons_self e pre)
    have hsig2 : HubEvent.signal ∉ pre := fun hh => hsig (List.mem_cons_of_mem _ hh)
    rw [List.cons_append, runLoop, if_neg (by rw [hmode]; simp)] at hrun
    cases hstep : stepEvent s e with
    | none => rw [hstep] at hrun; exact absurd hrun (by simp)
    | some s1 =>
      rw [hstep, Option.some_bind] at hrun
      cases hrl : runLoop s1 (pre ++ HubEvent.cmd MarketCommand.shutdown :: post) with
      | none => rw [hrl] at hrun; exact absurd hrun (by simp)
      | some r3 =>
        obtain ⟨s3, c3⟩ := r3
        rw [hrl] at hrun
        simp only [Option.map_some'] at hrun
        injection hrun with h2
        rw [Prod.mk.injEq] at h2
        obtain ⟨h3, h4⟩ := h2
        subst h3
        subst h4
        by_cases he : e = HubEvent.cmd MarketCommand.shutdown
        · subst he
          rw [stepEvent_shutdown] at hstep
          have hs1 : s1 = shutdownState s := (Option.some.inj hstep).symm
          subst hs1
          rw [runLoop_terminal (s := shutdownState s) rfl] at hrl
          injection hrl with h5
          rw [Prod.mk.injEq] at h5
          obtain ⟨h6, h7⟩ := h5
          rw [← h6, ← h7]
          refine ⟨rfl, by simp, ?_, by simp [shutdownState], runLoop_terminal rfl⟩
          intro n hn
          simp only [shutdownState, List.mem_map] at hn
          obtain ⟨m, hm, hm2⟩ := hn
          rw [← hm2, hl m hm]
        · obtain ⟨hm1, hl1⟩ := stepEvent_preserve hstep he hesig
          obtain ⟨c1, c2, c3', c4, c5⟩ :=
            ih s1 s3 c3 (hm1.trans hmode) hsig2 (by rw [hl1]; exact hl) hrl
          refine ⟨c1, by simp only [List.length_cons]; omega, c3', ?_, c5⟩
          rw [c4, hl1]

lemma runLoop_signal_trigger : ∀ (pre2 : List HubEvent) (t t2 : LoopState)
    (post2 : List HubEvent) (c2 : ℕ),
    t.mode = Mode.running →
    HubEvent.signal ∉ pre2 →
    HubEvent.cmd MarketCommand.shutdown ∉ pre2 →
    runLoop t (pre2 ++ HubEvent.signal :: post2) = some (t2, c2) →
    t2.mode = Mode.shuttingDown ∧ c2 ≤ pre2.length + 1 ∧
    t2.listeners = t.listeners ∧ (∀ es, runLoop t2 es = some (t2, 0)) := by
  intro pre2
  induction pre2 with
  | nil =>
    intro t t2 post2 c2 hmode _ _ hrun
    rw [List.nil_append, runLoop, if_neg (by rw [hmode]; simp), stepEvent_signal,
      Option.some_bind,
      runLoop_terminal (s := { t with mode := Mode.shuttingDown }) rfl post2] at hrun
    simp only [Option.map_some'] at hrun
    injection hrun with h2
    rw [Prod.mk.injEq] at h2
    obtain ⟨h3, h4⟩ := h2
    subst h3
    subst h4
    exact ⟨rfl, by simp, rfl, runLoop_terminal rfl⟩
  | cons e pre2 ih =>
    intro t t2 post2 c2 hmode hsig hcmd hrun
    have hesig : e ≠ HubEvent.signal := fun hh => hsig (hh ▸ List.mem_cons_self e pre2)
    have hecmd : e ≠ HubEvent.cmd MarketCommand.shutdown :=
      fun hh => hcmd (hh ▸ List.mem_cons_self e pre2)
    have hsig2 : HubEvent.signal ∉ pre2 := fun hh => hsig (List.mem_cons_of_mem _ hh)
    have hcmd2 : HubEvent.cmd MarketCommand.shutdown ∉ pre2 :=
      fun hh => hcmd (List.mem_cons_of_mem _ hh)
    rw [List.cons_append, runLoop, if_neg (by rw [hmode]; simp)] at hrun
    cases hstep : stepEvent t e with
    | none => rw [hstep] at hrun; exact absurd hrun (by simp)
    | some t1 =>
      rw [hstep, Option.some_bind] at hrun
      cases hrl : runLoop t1 (pre2 ++ HubEvent.signal :: post2) with
      | none => rw [hrl] at hrun; exact absurd hrun (by simp)
      | some r3 =>
        obtain ⟨t3, c3⟩ := r3
        rw [hrl] at hrun
        simp only [Option.map_some'] at hrun
        injection hrun with h2
        rw [Prod.mk.injEq] at h2
        obtain ⟨h3, h4⟩ := h2
        subst h3
        subst h4
        obtain ⟨hm1, hl1⟩ := stepEvent_preserve hstep hecmd hesig
        obtain ⟨d1, d2, d3, d4⟩ := ih t1 t3 post2 c3 (hm1.trans hmode) hsig2 hcmd2 hrl
        refine ⟨d1, ?_, ?_, d4⟩
        · simp only [List.length_cons]
          omega
        · rw [d3, hl1]

/-! ## Fan-in pool lemmas -/

lemma aggTotal_cons (k : String) (v : List ℚ) (rest : AggState) :
    aggTotal ((k, v) :: rest) = v.length + aggTotal rest := by
  simp [aggTotal]

lemma aggTotal_entryPush : ∀ (agg : AggState) (k : String) (p : ℚ),
    aggTotal (entryPush agg k p) = aggTotal agg + 1 := by
  intro agg
  induction agg with
  | nil => intro k p; simp [entryPush, aggTotal]
  | cons e rest ih =>
    intro k p
    obtain ⟨k2, v⟩ := e
    by_cases h : k2 = k
    · subst h
      simp [entryPush, aggTotal_cons]
      omega
    · simp [entryPush, h, aggTotal_cons, ih]
      omega

lemma poolStep_measure {p q : PoolState} (h : PoolStep p q) :
    poolMeasure q = poolMeasure p := by
  cases h with
  | recv t rest front back agg =>
    simp [poolMeasure, inFlightCount, List.countP_append, List.countP_cons]
    omega
  | recvClosed front back agg =>
    simp [poolMeasure, inFlightCount, List.countP_append, List.countP_cons]
  | process t stream front back agg agg2 hadd =>
    rw [addTick_eq] at hadd
    injection hadd with h2
    subst h2
    simp [poolMeasure, inFlightCount, List.countP_append, List.countP_cons,
      aggTotal_entryPush]
    omega

lemma poolStep_wf {p q : PoolState} (h : PoolStep p q) (hw : PoolWf p) : PoolWf q := by
  obtain ⟨hw1, hw2⟩ := hw
  cases h with
  | recv t rest front back agg =>
    constructor
    · intro w hwmem hd
      rcases List.mem_append.mp hwmem with hm | hm
      · exact hw1 w (List.mem_append_left _ hm) hd
      · rcases List.mem_cons.mp hm with hm2 | hm2
        · subst hm2; simp at hd
        · exact hw1 w (List.mem_append_right _ (List.mem_cons_of_mem _ hm2)) hd
    · rintro ⟨w, hwmem, hd⟩
      exfalso
      rcases List.mem_append.mp hwmem with hm | hm
      · exact absurd (hw2 ⟨w, List.mem_append_left _ hm, hd⟩) (by simp)
      · rcases List.mem_cons.mp hm with hm2 | hm2
        · subst hm2; simp at hd
        · exact absurd (hw2 ⟨w, List.mem_append_right _ (List.mem_cons_of_mem _ hm2), hd⟩)
            (by simp)
  | recvClosed front back agg =>
    constructor
    · intro w hwmem hd
      rcases List.mem_append.mp hwmem with hm | hm
      · exact hw1 w (List.mem_append_left _ hm) hd
      · rcases List.mem_cons.mp hm with hm2 | hm2
        · subst hm2; rfl
        · exact hw1 w (List.mem_append_right _ (List.mem_cons_of_mem _ hm2)) hd
    · intro _; rfl
  | process t stream front back agg agg2 hadd =>
    constructor
    · intro w hwmem hd
      rcases List.mem_append.mp hwmem with hm | hm
      · exact hw1 w (List.mem_append_left _ hm) hd
      · rcases List.mem_cons.mp hm with hm2 | hm2
        · subst hm2; rfl
        · exact hw1 w (List.mem_append_right _ (List.mem_cons_of_mem _ hm2)) hd
    · rintro ⟨w, hwmem, hd⟩
      rcases List.mem_append.mp hwmem with hm | hm
      · exact hw2 ⟨w, List.mem_append_left _ hm, hd⟩
      · rcases List.mem_cons.mp hm with hm2 | hm2
        · subst hm2; simp at hd
        · exact hw2 ⟨w, List.mem_append_right _ (List.mem_cons_of_mem _ hm2), hd⟩

lemma poolStep_workersLength {p q : PoolState} (h : PoolStep p q) :
    q.workers.length = p.workers.length := by
  cases h <;> simp

lemma reaches_invariant {p q : PoolState} (h : Reaches p q) (hw : PoolWf p) :
    PoolWf q ∧ poolMeasure q = poolMeasure p ∧ q.workers.length = p.workers.length := by
  induction h with
  | refl => exact ⟨hw, rfl, rfl⟩
  | tail hab hbc ih =>
    obtain ⟨ih1, ih2, ih3⟩ := ih
    exact ⟨poolStep_wf hbc ih1, by rw [poolStep_measure hbc, ih2],
      by rw [poolStep_workersLength hbc, ih3]⟩

/-! ## Claim theorems -/

/-- C3: the Aggregator's statistics query returns `none` if and only if the
symbol has no recorded ticks; otherwise, for a retained history `ps` of K ≥ 1
prices it returns `count = ps.length`, `min_price` the true minimum of `ps`,
`max_price` the true maximum, and `avg_price` the exact decimal mean
`ps.sum / K` computed by decimal division (decimals modelled as exact
rationals). -/
theorem C3_statistics_exact (agg : AggState) (symbol : String) :
    (getStatistics agg symbol = none ↔ historyOf agg symbol = []) ∧
    (∀ ps, historyOf agg symbol = ps → ps ≠ [] →
      ∃ m mx, ps.min? = some m ∧ ps.max? = some mx ∧
        m ∈ ps ∧ (∀ x ∈ ps, m ≤ x) ∧ mx ∈ ps ∧ (∀ x ∈ ps, x ≤ mx) ∧
        getStatistics agg symbol =
          some ⟨symbol, ps.length, m, mx, ps.sum / (ps.length : ℚ)⟩) := by
  refine ⟨getStatistics_none_iff agg symbol, ?_⟩
  intro ps hps hne
  have hl : lookupA agg symbol = some ps := by
    unfold historyOf at hps
    cases hlk : lookupA agg symbol with
    | none =>
      rw [hlk] at hps
      simp at hps
      exact absurd hps hne
    | some v =>
      rw [hlk] at hps
      simp at hps
      rw [hps]
  have hmne : ps.min? ≠ none := by simp [List.min?_eq_none_iff, hne]
  have hxne : ps.max? ≠ none := by simp [List.max?_eq_none_iff, hne]
  obtain ⟨m, hm⟩ := Option.ne_none_iff_exists'.mp hmne
  obtain ⟨mx, hx⟩ := Option.ne_none_iff_exists'.mp hxne
  obtain ⟨hmem, hle⟩ := min?_is_min hm
  obtain ⟨hxmem, hxle⟩ := max?_is_max hx
  refine ⟨m, mx, hm, hx, hmem, hle, hxmem, hxle, ?_⟩
  simp [getStatistics, hl, hne, hm, hx, decimalFromUsize]

/-- Witness for C3 at the history [3, 1, 2]: count 3, min 1, max 3, exact
mean 2. -/
theorem C3_witness :
    getStatistics [("A", [(3 : ℚ), 1, 2])] "A" = some ⟨"A", 3, 1, 3, 2⟩ := by
  obtain ⟨m, mx, hm, hx, _, _, _, _, heq⟩ :=
    (C3_statistics_exact [("A", [(3 : ℚ), 1, 2])] "A").2 [3, 1, 2] rfl (by decide)
  have hm1 : ([(3 : ℚ), 1, 2]).min? = some 1 := by decide
  have hx1 : ([(3 : ℚ), 1, 2]).max? = some 3 := by decide
  rw [hm1] at hm
  rw [hx1] at hx
  injection hm with hm2
  injection hx with hx2
  subst hm2
  subst hx2
  rw [heq]
  norm_num

/-- C4: after one full distribution pass, the reverse-order eviction of the
indices collected for failed sends removes exactly the marked entries: the
surviving subscriber vector consists of exactly the unmarked entries, with
their identities and relative order untouched. -/
theorem C4_eviction_exact (subs subs2 : List Chan) (failed delivered : List ℕ)
    (h : sendLoop subs 0 = some (subs2, failed, delivered)) :
    evictRev subs2 failed = keepNotIn subs2 0 failed := by
  obtain ⟨hlen, hpair, hbound⟩ := sendLoop_spec subs 0 subs2 failed delivered h
  unfold evictRev
  rw [foldl_eraseIdx_keepNotIn failed.reverse subs2 (List.pairwise_reverse.mpr hpair)]
  · exact keepNotIn_congr subs2 0 failed.reverse failed fun x => List.mem_reverse
  · intro d hd
    rw [List.mem_reverse] at hd
    have h1 := (hbound d hd).2
    omega

/-- Witness for C4: a pass over a closed channel followed by an open one marks
index 0 only; eviction keeps exactly the delivered-to entry. -/
theorem C4_witness :
    sendLoop [⟨0, 5, 0, true⟩, ⟨1, 5, 0, false⟩] 0 =
      some ([⟨0, 5, 0, true⟩, ⟨1, 5, 1, false⟩], [0], [1]) ∧
    evictRev [⟨0, 5, 0, true⟩, ⟨1, 5, 1, false⟩] [0] =
      keepNotIn [⟨0, 5, 0, true⟩, ⟨1, 5, 1, false⟩] 0 [0] :=
  ⟨by decide,
   C4_eviction_exact [⟨0, 5, 0, true⟩, ⟨1, 5, 0, false⟩]
     [⟨0, 5, 0, true⟩, ⟨1, 5, 1, false⟩] [0] [1] (by decide)⟩

/-- C5: when `Subscribe` is processed, the new subscriber entry is appended to
the symbol's vector whether or not the caller already dropped the oneshot
response receiver; the failed reply only changes the returned send status
(which is merely logged), never the registry, and the handler is total (no
fatal path). -/
theorem C5_subscribe_swallows_response_failure (st : HubState) (symbol : String)
    (respOpen : Bool) :
    subsOf (handleSubscribe st symbol respOpen).1 symbol
      = subsOf st symbol ++ [⟨st.nextId, 1000, 0, false⟩] ∧
    (handleSubscribe st symbol respOpen).1 = (handleSubscribe st symbol true).1 ∧
    (handleSubscribe st symbol respOpen).2 = respOpen := by
  refine ⟨?_, rfl, rfl⟩
  unfold subsOf handleSubscribe
  simp [lookupA_entryPush_self]

/-- C6: `add_tick` never fails — the `to_f64` unwrap is on an unreachable
error branch — and appends exactly `tick.price` at the end of the per-symbol
history, creating it if absent, leaving every other symbol's history
untouched. -/
theorem C6_add_tick_never_fails (agg : AggState) (t : MarketTick) :
    addTick agg t = some (entryPush agg t.symbol t.price) ∧
    historyOf (entryPush agg t.symbol t.price) t.symbol
      = historyOf agg t.symbol ++ [t.price] ∧
    ∀ sym, sym ≠ t.symbol →
      lookupA (entryPush agg t.symbol t.price) sym = lookupA agg sym := by
  refine ⟨addTick_eq agg t, ?_, ?_⟩
  · unfold historyOf
    rw [lookupA_entryPush_self]
    simp
  · intro sym hne
    exact lookupA_entryPush_ne _ _ _ _ hne

/-- Witness for C6 on the empty aggregator. -/
theorem C6_witness :
    addTick [] ⟨"A", 5, 1⟩ = some [("A", [(5 : ℚ)])] ∧
    lookupA (entryPush [] "A" (5 : ℚ)) "B" = lookupA [] "B" :=
  ⟨(C6_add_tick_never_fails [] ⟨"A", 5, 1⟩).1,
   (C6_add_tick_never_fails [] ⟨"A", 5, 1⟩).2.2 "B" (by decide)⟩

/-- C7: `Unsubscribe` removes every subscriber entry registered under the
symbol (the key disappears), is a benign state-preserving no-op when the
symbol has no entries, and any tick for that symbol processed afterwards is
aggregated but delivered to zero channels. -/
theorem C7_unsubscribe_removes_all (st : HubState) (t : MarketTick) :
    lookupA (handleUnsubscribe st t.symbol).subscribers t.symbol = none ∧
    (lookupA st.subscribers t.symbol = none → handleUnsubscribe st t.symbol = st) ∧
    processMarketTick (handleUnsubscribe st t.symbol) t =
      some (⟨removeA st.subscribers t.symbol,
             entryPush st.agg t.symbol t.price, st.nextId⟩, []) := by
  have h1 : lookupA (removeA st.subscribers t.symbol) t.symbol = none :=
    lookupA_removeA_self _ _
  refine ⟨h1, ?_, ?_⟩
  · intro h
    unfold handleUnsubscribe
    rw [removeA_of_lookupA_none _ _ h]
  · simp [processMarketTick, handleUnsubscribe, addTick_eq, h1]

/-- Witness for C7: unsubscribing an absent symbol is a no-op, and a tick
after an effective unsubscription reaches nobody. -/
theorem C7_witness :
    handleUnsubscribe ⟨[], [], 0⟩ "VZW" = ⟨[], [], 0⟩ ∧
    processMarketTick (handleUnsubscribe ⟨[("VZW", [⟨0, 1000, 0, false⟩])], [], 1⟩ "VZW")
        ⟨"VZW", 7, 1⟩ =
      some (⟨[], [("VZW", [(7 : ℚ)])], 1⟩, []) :=
  ⟨(C7_unsubscribe_removes_all ⟨[], [], 0⟩ ⟨"VZW", 7, 1⟩).2.1 rfl,
   (C7_unsubscribe_removes_all ⟨[("VZW", [⟨0, 1000, 0, false⟩])], [], 1⟩ ⟨"VZW", 7, 1⟩).2.2⟩

/-- C10 (implicit): a symbol with one or more active subscriber entries but no
recorded ticks is silently absent from the `GetStats` reply — nothing in the
returned collection distinguishes it from a symbol that was never
subscribed. -/
theorem C10_subscribed_without_data_absent (st : HubState) (sym : String)
    (subs : List Chan)
    (_h1 : lookupA st.subscribers sym = some subs) (_h2 : subs ≠ [])
    (h3 : historyOf st.agg sym = []) :
    sym ∉ (handleGetStats st).map PriceStats.symbol := by
  intro hmem
  obtain ⟨s, hs, hsym⟩ := List.mem_map.mp hmem
  obtain ⟨k, hk, hf⟩ := List.mem_filterMap.mp hs
  have hks : s.symbol = k := getStatistics_symbol_eq hf
  rw [hks] at hsym
  rw [hsym] at hf
  have hnone : getStatistics st.agg sym = none := (getStatistics_none_iff _ _).mpr h3
  rw [hnone] at hf
  exact absurd hf (by simp)

/-- Witness for C10: one live subscriber for "T", no ticks, no stats entry. -/
theorem C10_witness :
    "T" ∉ (handleGetStats ⟨[("T", [⟨0, 1000, 0, false⟩])], [], 1⟩).map
        PriceStats.symbol :=
  C10_subscribed_without_data_absent _ "T" [⟨0, 1000, 0, false⟩] (by decide)
    (by decide) (by decide)

/-- C1 counterexample: subscribe to "AAPL", drop the receiver, process one
tick — the send fails, the only entry is evicted, but the key stays in the
registry with an empty vector.  `GetStats` then still returns an entry for
"AAPL" although it has zero active subscriber entries, refuting the claim. -/
theorem C1_counterexample :
    (handleSubscribe ⟨[], [], 0⟩ "AAPL" true).1
        = ⟨[("AAPL", [⟨0, 1000, 0, false⟩])], [], 1⟩ ∧
    dropReceiver ⟨[("AAPL", [⟨0, 1000, 0, false⟩])], [], 1⟩ 0
        = ⟨[("AAPL", [⟨0, 1000, 0, true⟩])], [], 1⟩ ∧
    processMarketTick ⟨[("AAPL", [⟨0, 1000, 0, true⟩])], [], 1⟩ ⟨"AAPL", 10, 5⟩
        = some (⟨[("AAPL", [])], [("AAPL", [10])], 1⟩, []) ∧
    subsOf ⟨[("AAPL", [])], [("AAPL", [(10 : ℚ)])], 1⟩ "AAPL" = [] ∧
    (handleGetStats ⟨[("AAPL", [])], [("AAPL", [(10 : ℚ)])], 1⟩).map PriceStats.symbol
        = ["AAPL"] := by
  refine ⟨by decide, by decide, by decide, by decide, ?_⟩
  simp [handleGetStats, keysA, getStatistics, lookupA, decimalFromUsize,
    List.min?, List.max?]

/-- C1 amended: `GetStats` never includes a symbol that has no entry in the
subscriber registry; but a symbol whose registry entry still exists with an
empty subscriber vector (all entries evicted after failed sends) is included
whenever it has recorded ticks. -/
theorem C1_getstats_registry_keys (st : HubState) (sym : String) :
    (lookupA st.subscribers sym = none →
      sym ∉ (handleGetStats st).map PriceStats.symbol) ∧
    (lookupA st.subscribers sym = some [] → historyOf st.agg sym ≠ [] →
      sym ∈ (handleGetStats st).map PriceStats.symbol) := by
  constructor
  · intro h hmem
    obtain ⟨s, hs, hsym⟩ := List.mem_map.mp hmem
    obtain ⟨k, hk, hf⟩ := List.mem_filterMap.mp hs
    have hks : s.symbol = k := getStatistics_symbol_eq hf
    rw [hks] at hsym
    rw [hsym] at hk
    exact absurd hk ((lookupA_none_iff _ _).mp h)
  · intro h hne
    have hk : sym ∈ keysA st.subscribers := by
      by_contra hh
      rw [← lookupA_none_iff] at hh
      rw [h] at hh
      exact Option.noConfusion hh
    have hsome : getStatistics st.agg sym ≠ none := fun hh =>
      hne ((getStatistics_none_iff _ _).mp hh)
    obtain ⟨s, hs⟩ := Option.ne_none_iff_exists'.mp hsome
    exact List.mem_map.mpr
      ⟨s, List.mem_filterMap.mpr ⟨sym, hk, hs⟩, getStatistics_symbol_eq hs⟩

/-- Witness for the amended C1: in the evicted-to-empty state, "AAPL" (key
present, vector empty, history nonempty) is reported, while "MSFT" (no key)
is not. -/
theorem C1_witness :
    "AAPL" ∈ (handleGetStats ⟨[("AAPL", [])], [("AAPL", [(10 : ℚ)])], 1⟩).map
        PriceStats.symbol ∧
    "MSFT" ∉ (handleGetStats ⟨[("AAPL", [])], [("AAPL", [(10 : ℚ)])], 1⟩).map
        PriceStats.symbol :=
  ⟨(C1_getstats_registry_keys ⟨[("AAPL", [])], [("AAPL", [(10 : ℚ)])], 1⟩ "AAPL").2
      (by decide) (by decide),
   (C1_getstats_registry_keys ⟨[("AAPL", [])], [("AAPL", [(10 : ℚ)])], 1⟩ "MSFT").1
      (by decide)⟩

/-- C2 evaluation at the failing input: `sender.send(..).await` on a full open
channel does not return the `Err` that marks an entry for removal — it
suspends, so one full subscriber channel stalls the whole distribution pass
and the tick is not delivered to the healthy second subscriber
(`processMarketTick` does not complete).  By contrast a closed channel is
handled exactly as the claim says: only that entry is evicted, the other
subscriber still receives the tick, and the symbol's vector survives. -/
theorem C2_full_channel_blocks :
    mpscSend ⟨0, 1000, 1000, false⟩ = SendResult.blocked ∧
    mpscSend ⟨0, 1000, 1000, false⟩ ≠ SendResult.errClosed ∧
    processMarketTick ⟨[("AAPL", [⟨0, 1000, 1000, false⟩, ⟨1, 1000, 0, false⟩])], [], 2⟩
        ⟨"AAPL", 10, 5⟩ = none ∧
    processMarketTick ⟨[("AAPL", [⟨0, 1000, 0, true⟩, ⟨1, 1000, 0, false⟩])], [], 2⟩
        ⟨"AAPL", 10, 5⟩ =
      some (⟨[("AAPL", [⟨1, 1000, 1, false⟩])], [("AAPL", [10])], 2⟩, [1]) :=
  ⟨by decide, by decide, by decide, by decide⟩

/-- C8: processing a `Shutdown` command from `running` flips the loop to the
terminal `shuttingDown` state within one iteration past the preceding events,
the remaining schedule is never processed (`runLoop` from a `shuttingDown`
state is the identity, consuming zero iterations), and the one-time broadcast
makes every registered shutdown listener observe the notification exactly
once.  The final conjunct settles the other trigger of the claim's
disjunction: observing the external shutdown signal from `running` likewise
transitions to the terminal state and terminates the loop within a bounded
number of iterations, without re-broadcasting — the listener counts are
unchanged, so the one-time notification already delivered by the broadcast
that raised the signal stays observed exactly once. -/
theorem C8_shutdown_terminal (s : LoopState) (pre post : List HubEvent)
    (s2 : LoopState) (count : ℕ)
    (hmode : s.mode = Mode.running)
    (hsig : HubEvent.signal ∉ pre)
    (hl : ∀ n ∈ s.listeners, n = 0)
    (hrun : runLoop s (pre ++ HubEvent.cmd MarketCommand.shutdown :: post) =
      some (s2, count)) :
    s2.mode = Mode.shuttingDown ∧ count ≤ pre.length + 1 ∧
    (∀ n ∈ s2.listeners, n = 1) ∧ s2.listeners.length = s.listeners.length ∧
    (∀ es, runLoop s2 es = some (s2, 0)) ∧
    (∀ (t t2 : LoopState) (pre2 post2 : List HubEvent) (c2 : ℕ),
      t.mode = Mode.running →
      HubEvent.signal ∉ pre2 →
      HubEvent.cmd MarketCommand.shutdown ∉ pre2 →
      runLoop t (pre2 ++ HubEvent.signal :: post2) = some (t2, c2) →
      t2.mode = Mode.shuttingDown ∧ c2 ≤ pre2.length + 1 ∧
      t2.listeners = t.listeners ∧ (∀ es, runLoop t2 es = some (t2, 0))) := by
  obtain ⟨a1, a2, a3, a4, a5⟩ := runLoop_cmd_trigger s pre post s2 count hmode hsig hl hrun
  exact ⟨a1, a2, a3, a4, a5, fun t t2 pre2 post2 c2 h1 h2 h3 h4 =>
    runLoop_signal_trigger pre2 t t2 post2 c2 h1 h2 h3 h4⟩

/-- Witness for C8: a two-listener hub processes `Shutdown` as its first
event — the loop ends after one iteration in `shuttingDown`, both listeners
hold exactly one notification, and a further schedule is not processed; and a
hub whose first event is the external shutdown signal also ends terminal after
one iteration with its listener counts untouched, ignoring even a later
`Shutdown` command. -/
theorem C8_witness :
    (⟨⟨[], [], 0⟩, Mode.shuttingDown, [1, 1]⟩ : LoopState).mode = Mode.shuttingDown ∧
    (1 : ℕ) ≤ 0 + 1 ∧
    (∀ n ∈ (⟨⟨[], [], 0⟩, Mode.shuttingDown, [1, 1]⟩ : LoopState).listeners, n = 1) ∧
    runLoop ⟨⟨[], [], 0⟩, Mode.shuttingDown, [1, 1]⟩ [HubEvent.signal] =
      some (⟨⟨[], [], 0⟩, Mode.shuttingDown, [1, 1]⟩, 0) ∧
    (⟨⟨[], [], 0⟩, Mode.shuttingDown, [0, 0]⟩ : LoopState).mode = Mode.shuttingDown ∧
    (⟨⟨[], [], 0⟩, Mode.shuttingDown, [0, 0]⟩ : LoopState).listeners =
      (⟨⟨[], [], 0⟩, Mode.running, [0, 0]⟩ : LoopState).listeners ∧
    runLoop ⟨⟨[], [], 0⟩, Mode.shuttingDown, [0, 0]⟩ [HubEvent.cmd MarketCommand.shutdown] =
      some (⟨⟨[], [], 0⟩, Mode.shuttingDown, [0, 0]⟩, 0) := by
  have h := C8_shutdown_terminal ⟨⟨[], [], 0⟩, Mode.running, [0, 0]⟩ []
    [HubEvent.cmd MarketCommand.shutdown]
    ⟨⟨[], [], 0⟩, Mode.shuttingDown, [1, 1]⟩ 1
    rfl (by simp) (by decide) (by decide)
  have hsigpart := h.2.2.2.2.2 ⟨⟨[], [], 0⟩, Mode.running, [0, 0]⟩
    ⟨⟨[], [], 0⟩, Mode.shuttingDown, [0, 0]⟩ [] [] 1
    rfl (by simp) (by simp) (by decide)
  exact ⟨h.1, h.2.1, h.2.2.1, h.2.2.2.2.1 [HubEvent.signal],
    hsigpart.1, hsigpart.2.2.1, hsigpart.2.2.2 [HubEvent.cmd MarketCommand.shutdown]⟩

/-- C9 counterexample: with `consumer_count = 0` the pool spawns no workers,
`process_market_stream` returns immediately ("all workers terminated" holds
vacuously), and the final aggregated count is 0, not the M = 1 items of the
stream — the claim fails "regardless of N" at N = 0. -/
theorem C9_counterexample :
    Reaches (initPool 0 [⟨"AAPL", 10, 5⟩]) (initPool 0 [⟨"AAPL", 10, 5⟩]) ∧
    (initPool 0 [(⟨"AAPL", 10, 5⟩ : MarketTick)]).workers.all (fun w => w.done) = true ∧
    aggTotal (initPool 0 [(⟨"AAPL", 10, 5⟩ : MarketTick)]).agg = 0 ∧
    ([(⟨"AAPL", 10, 5⟩ : MarketTick)]).length = 1 :=
  ⟨Relation.ReflTransGen.refl, rfl, rfl, rfl⟩

/-- C9 amended (N ≥ 1): under the mutual-exclusion gates each stream item is
received by exactly one worker, so for any pool of at least one worker, once
every worker has terminated the aggregated tick count across all symbols
equals exactly the number M of stream items, whatever the interleaving. -/
theorem C9_pool_exact_count (n : ℕ) (ticks : List MarketTick) (q : PoolState)
    (hn : 1 ≤ n) (hr : Reaches (initPool n ticks) q)
    (hdone : ∀ w ∈ q.workers, w.done = true) :
    aggTotal q.agg = ticks.length := by
  have hwf : PoolWf (initPool n ticks) := by
    constructor
    · intro w hw hd
      rw [List.eq_of_mem_replicate hw] at hd
      exact absurd hd (by simp)
    · rintro ⟨w, hw, hd⟩
      rw [List.eq_of_mem_replicate hw] at hd
      exact absurd hd (by simp)
  obtain ⟨⟨hq1, hq2⟩, hmeas, hlen⟩ := reaches_invariant hr hwf
  have hlen2 : q.workers.length = n := by
    rw [hlen]
    simp [initPool]
  have hne : q.workers ≠ [] := by
    intro hh
    rw [hh] at hlen2
    simp at hlen2
    omega
  obtain ⟨w0, hw0⟩ := List.exists_mem_of_ne_nil q.workers hne
  have hstream : q.stream = [] := hq2 ⟨w0, hw0, hdone w0 hw0⟩
  have hifc : inFlightCount q.workers = 0 := by
    rw [inFlightCount, List.countP_eq_zero]
    intro w hw
    have h1 := hq1 w hw (hdone w hw)
    simp [h1]
  have hinit : poolMeasure (initPool n ticks) = ticks.length := by
    have hc : inFlightCount (List.replicate n (⟨none, false⟩ : Worker)) = 0 := by
      rw [inFlightCount, List.countP_eq_zero]
      intro w hw
      rw [List.eq_of_mem_replicate hw]
      simp
    simp [poolMeasure, initPool, hc, aggTotal, inFlightCount]
  have hq : aggTotal q.agg = poolMeasure q := by
    rw [poolMeasure, hstream, hifc]
    simp
  rw [hq, hmeas, hinit]

/-- Witness for the amended C9: one worker drains a one-tick stream — receive,
process, observe closed, terminate — and the final count is exactly 1. -/
theorem C9_witness :
    aggTotal (⟨[], [⟨none, true⟩], [("AAPL", [(10 : ℚ)])]⟩ : PoolState).agg =
      ([(⟨"AAPL", 10, 5⟩ : MarketTick)]).length := by
  refine C9_pool_exact_count 1 [⟨"AAPL", 10, 5⟩] _ (by decide) ?_ (by decide)
  exact Relation.ReflTransGen.head (PoolStep.recv ⟨"AAPL", 10, 5⟩ [] [] [] [])
    (Relation.ReflTransGen.head
      (PoolStep.process ⟨"AAPL", 10, 5⟩ [] [] [] [] [("AAPL", [10])] rfl)
      (Relation.ReflTransGen.head (PoolStep.recvClosed [] [] [("AAPL", [10])])
        Relation.ReflTransGen.refl))

end MarketData
